import Mathlib

/-!
Verification of the `fann` feedforward neural-network engine
(`src/fann/fann.py`, loss functions) and its demo import routine
(`src/_demo/fann/util.py`, `homebrewify`) against the design document.

Conventions of the shallow embedding:
  * A pandas `Series` of probabilities becomes `List ℝ` (positional index).
  * A pandas `DataFrame` (observations × categories) becomes `List (List ℝ)`,
    rows keyed by position, columns keyed by position (the demo uses the
    integer labels `0 .. K-1` as column labels, so positional keying is
    exact).
  * IEEE floats are idealized as extended reals `EReal`: `np.log 0 = -inf`
    becomes `⊥`, and the resulting `-(-inf) = +inf` loss becomes `⊤`.
    (NaN — which only arises from negative "probabilities", never supplied
    by the engine — is not modelled.)
  * A Python exception becomes `Option.none`: fallible code returns `Option`.
-/

namespace Fann

/-- Embeds `np.log` on nonnegative floats: `np.log 0` is `-inf` (`⊥`),
`np.log x` for `x > 0` is the real natural log.  (`np.log` of a negative
float is NaN, which never arises for the probability inputs used here and
is not modelled.) -/
noncomputable def elog (x : ℝ) : EReal := if x = 0 then ⊥ else ((Real.log x : ℝ) : EReal)

/-- Embeds `get_ll` (src/fann/fann.py lines 43-56):
`return np.log(p).sum()` — elementwise log, then sum. -/
noncomputable def get_ll (p : List ℝ) : EReal := (p.map elog).sum

/-- Embeds `_get_loss` (src/fann/fann.py lines 59-79):
`return -get_ll(p=p_y)`. -/
noncomputable def _get_loss (p_y : List ℝ) : EReal := -(get_ll p_y)

/-- Evaluates each element of a list under a fallible function, propagating
the first failure: embeds a Python comprehension in which any iteration may
raise (the raise aborts the whole comprehension). -/
def traverseOpt (f : α → Option β) : List α → Option (List β)
  | [] => some []
  | a :: l =>
    match f a with
    | none => none
    | some b => (traverseOpt f l).map (fun bs => b :: bs)

/-- One `p_hat.loc[n, label]` lookup: row `n`, then column `label`; a
missing row or column raises a `KeyError` (modelled as `none`). -/
def locLookup (p_hat : List (List ℝ)) (nl : ℕ × ℕ) : Option ℝ :=
  (p_hat.get? nl.1).bind (fun row => row.get? nl.2)

/-- Embeds the comprehension
`p_y = pd.Series({n: p_hat.loc[n, label] for n, label in y.items()})`
(src/fann/fann.py line 100): `y.items()` pairs each observation index with
its label. -/
def selectTrue (p_hat : List (List ℝ)) (y : List ℕ) : Option (List ℝ) :=
  traverseOpt (locLookup p_hat) y.enum

/-- Embeds `get_loss` (src/fann/fann.py lines 82-101): select the
probability assigned to the correct label of each observation, then apply
`_get_loss`.  A failed lookup propagates as `none` (the raised exception). -/
noncomputable def get_loss (p_hat : List (List ℝ)) (y : List ℕ) : Option EReal :=
  (selectTrue p_hat y).map _get_loss

/-- The probability `p_hat[n, y[n]]` that the model assigned to observation
`n`'s true label (total version, junk `0` out of range). -/
def picks (p_hat : List (List ℝ)) (y : List ℕ) : List ℝ :=
  y.enum.map (fun nl => (p_hat.getD nl.1 []).getD nl.2 0)

/-- The arguments of a loss call, as explicit state.  `get_loss` and
`get_ll` read them: the comprehension on line 100 only reads `p_hat.loc`
and `y.items()`, `np.log(p)` allocates a fresh array (its `out` argument
defaults to `None`), and `.sum()` is a pure reduction — so a call is
modelled as state-passing that returns the state it was given. -/
structure LossArgs where
  p_hat : List (List ℝ)
  y : List ℕ
  p : List ℝ

/-- A call to `get_ll` on the argument state: the returned value, paired
with the state of the arguments after the call. -/
noncomputable def get_ll_call (a : LossArgs) : EReal × LossArgs :=
  (get_ll a.p, a)

/-- A call to `get_loss` on the argument state: the returned value, paired
with the state of the arguments after the call. -/
noncomputable def get_loss_call (a : LossArgs) : Option EReal × LossArgs :=
  (get_loss a.p_hat a.y, a)

/-- The negative log-likelihood of the selected true-label probabilities,
as a real number: the closed formula the design document gives for the
loss. -/
noncomputable def lossVal (p_hat : List (List ℝ)) (y : List ℕ) : ℝ :=
  -(((picks p_hat y).map Real.log).sum)

/-! ## The demo's import routine (src/_demo/fann/util.py)

A `fann.Layer` is a pandas DataFrame whose rows are the layer's neurons and
whose columns are `[fann.BIAS_INDEX] + prev_neuron_indices`: embedded as
`List (List ℝ)` where row `j` is `bias_j :: incoming_weights_j` (position 0
plays the role of the reserved bias key).  A network is the list of its
layers (`fann.nnify` packages exactly that list). -/

/-- `NUM_FEATURES` (src/_demo/fann/util.py line 32). -/
def NUM_FEATURES : ℕ := 2

/-- `NUM_CATEGORIES` (src/_demo/fann/util.py line 33). -/
def NUM_CATEGORIES : ℕ := 2

/-- `LAYER_WIDTH` (src/_demo/fann/util.py line 34). -/
def LAYER_WIDTH : List ℕ := [4, 3]

/-- The weight arrays of the externally trained reference model
(`sklearn.neural_network.MLPClassifier`): `intercepts_[l]` is the bias
vector of layer `l` (one entry per neuron), and `coefs_[l]` is the weight
matrix of layer `l`, rows indexed by the incoming (previous-layer) neuron
and columns by this layer's neuron — so `coefs_[l].T[j]` is the list of
incoming weights of neuron `j`. -/
structure RefNN where
  intercepts : List (List ℝ)
  coefs : List (List (List ℝ))

/-- Row `j` of the transpose of matrix `M`, i.e. column `j` of `M`:
embeds `M.T[j]` for the rectangular numpy arrays used here (junk `0` when
`M` is ragged or `j` out of range, which the pandas assignment would
reject). -/
def colT (M : List (List ℝ)) (j : ℕ) : List ℝ :=
  M.map (fun row => row.getD j 0)

/-- One hidden layer as built by `homebrewify` (src/_demo/fann/util.py
lines 85-98): a DataFrame with `index = range(width)` and columns
`[BIAS_INDEX] + prev_neuron_indices`, whose bias column is
`intercepts_[l]` and whose non-bias block is `coefs_[l].T` (so row `j` is
`intercepts_[l][j] :: coefs_[l].T[j]`).  The pandas assignments require
the array shapes to match the frame exactly and raise otherwise; the
embedding is faithful on shape-matching inputs. -/
def mkLayer (bias : List ℝ) (M : List (List ℝ)) (width : ℕ) : List (List ℝ) :=
  (List.range width).map (fun j => bias.getD j 0 :: colT M j)

/-- `ref_nn.intercepts_[-1][0]`: the bias of the reference model's single
output neuron (src/_demo/fann/util.py lines 162-163). -/
def refOutputBias (ref : RefNN) : ℝ :=
  (ref.intercepts.getLastD []).getD 0 0

/-- `ref_nn.coefs_[-1].T[0]`: the incoming weights of the reference
model's single output neuron (src/_demo/fann/util.py lines 165-166). -/
def refOutputWeights (ref : RefNN) : List ℝ :=
  colT (ref.coefs.getLastD []) 0

/-- The output layer built by `homebrewify` (src/_demo/fann/util.py lines
160-166): two neurons; neuron 0's bias and weights are the negation of the
reference output neuron's, neuron 1's are exactly the reference output
neuron's. -/
def outputLayerOf (ref : RefNN) : List (List ℝ) :=
  [(-(refOutputBias ref)) :: (refOutputWeights ref).map (fun w => -w),
   refOutputBias ref :: refOutputWeights ref]

/-- The network `homebrewify` returns on the success path
(src/_demo/fann/util.py lines 82-99 and 160-169): the hidden layers built
from `intercepts_[l]` / `coefs_[l].T` for each declared width, followed by
the two-neuron output layer.  `fann.nnify` packages this list of layers as
the homebrew network. -/
def homebrewNN (ref : RefNN) (layer_width : List ℕ) : List (List (List ℝ)) :=
  (List.range layer_width.length).map
      (fun l => mkLayer (ref.intercepts.getD l []) (ref.coefs.getD l [])
        (layer_width.getD l 0))
    ++ [outputLayerOf ref]

/-- `homebrewify` with the module-level constant `NUM_CATEGORIES`
generalized to a parameter `k`: the guard on line 158 reads only that
constant (never the passed reference model) and raises `ValueError`
(modelled as `none`) before constructing the output layer when `k ≠ 2`. -/
def homebrewifyG (k : ℕ) (ref : RefNN) (layer_width : List ℕ) :
    Option (List (List (List ℝ))) :=
  if k ≠ 2 then none else some (homebrewNN ref layer_width)

/-- Embeds `homebrewify` (src/_demo/fann/util.py lines 79-169) as the
program defines it, with the guard reading the module constant
`NUM_CATEGORIES`. -/
def homebrewify (ref : RefNN) (layer_width : List ℕ) :
    Option (List (List (List ℝ))) :=
  homebrewifyG NUM_CATEGORIES ref layer_width

/-! ## Forward propagation

Modelled from the spec: the forward-pass code (`foggy_ml.fann`'s
propagation routines) is not under `src/` — only its caller
(src/_demo/fann/util.py) and the loss functions are — so the Forward
Propagator and Activation Function are modelled from sections 4.2 and 4.3
of the design document, using the same layer representation the import
routine builds. -/

/-- Modelled from the spec: the logistic activation
`f(x) = 1 / (1 + e^-x)` of section 4.3, applied elementwise at every
layer boundary. -/
noncomputable def sigmoid (x : ℝ) : ℝ := 1 / (1 + Real.exp (-x))

/-- Dot product of a weight row with the previous layer's output row. -/
def dotl (w a : List ℝ) : ℝ := (List.zipWith (fun x y => x * y) w a).sum

/-- Modelled from the spec: a neuron's pre-activation is its bias weight
plus the dot product of its incoming weights with the previous layer's
output (section 4.2); the neuron row is stored `bias :: weights`. -/
def preact (row : List ℝ) (a : List ℝ) : ℝ :=
  match row with
  | [] => 0
  | b :: w => b + dotl w a

/-- Modelled from the spec: one layer's post-activation output — the
activation function applied elementwise to each neuron's pre-activation
(sections 4.2 and 4.3). -/
noncomputable def layerOut (layer : List (List ℝ)) (a : List ℝ) : List ℝ :=
  layer.map (fun row => sigmoid (preact row a))

/-- Modelled from the spec: propagation of one observation through all
layers in sequence; layer 0 consumes the raw input row (section 4.2). -/
noncomputable def propagate (nn : List (List (List ℝ))) (x : List ℝ) : List ℝ :=
  nn.foldl (fun a layer => layerOut layer a) x

/-- Modelled from the spec: the final squashing step — exponentiate the
output layer's post-activation values and row-normalize (softmax,
section 4.2). -/
noncomputable def squash (v : List ℝ) : List ℝ :=
  v.map (fun z => Real.exp z / (v.map Real.exp).sum)

/-- Modelled from the spec: `forward` — propagate each observation of the
batch through the network and squash the final layer's post-activation
row into a probability distribution (section 4.2). -/
noncomputable def forward (nn : List (List (List ℝ))) (X : List (List ℝ)) :
    List (List ℝ) :=
  X.map (fun x => squash (propagate nn x))

/-! ## Helper lemmas -/

lemma get?_eq_some_getD {α : Type _} (l : List α) (d : α) {n : ℕ}
    (h : n < l.length) : l.get? n = some (l.getD n d) := by
  rw [List.getD_eq_get?]
  cases hx : l.get? n with
  | none => rw [List.get?_eq_none] at hx; omega
  | some a => rfl

lemma ll_coe (p : List ℝ) :
    (∀ x ∈ p, x ≠ 0) → get_ll p = (((p.map Real.log).sum : ℝ) : EReal) := by
  induction p with
  | nil => intro _; simp [get_ll]
  | cons a l ih =>
    intro h
    have ha : a ≠ 0 := h a (by simp)
    have hl := ih (fun x hx => h x (by simp [hx]))
    simp only [get_ll, List.map_cons, List.sum_cons] at hl ⊢
    rw [hl, elog, if_neg ha, EReal.coe_add]

lemma ll_bot (p : List ℝ) (h : (0:ℝ) ∈ p) : get_ll p = ⊥ := by
  induction p with
  | nil => simp at h
  | cons a l ih =>
    simp only [get_ll, List.map_cons, List.sum_cons] at ih ⊢
    rcases List.mem_cons.mp h with h0 | h0
    · rw [← h0, elog, if_pos rfl, EReal.bot_add]
    · rw [ih h0, EReal.add_bot]

lemma traverseOpt_eq_map {α β : Type _} (f : α → Option β) (g : α → β)
    (l : List α) (h : ∀ a ∈ l, f a = some (g a)) :
    traverseOpt f l = some (l.map g) := by
  induction l with
  | nil => rfl
  | cons a l ih =>
    simp only [traverseOpt, h a (by simp), ih (fun x hx => h x (by simp [hx]))]
    rfl

lemma traverseOpt_none {α β : Type _} (f : α → Option β) (l : List α)
    (h : ∃ a ∈ l, f a = none) : traverseOpt f l = none := by
  induction l with
  | nil => simp at h
  | cons a l ih =>
    simp only [traverseOpt]
    rcases h with ⟨x, hx, hfx⟩
    rcases List.mem_cons.mp hx with rfl | hxl
    · rw [hfx]
    · cases hfa : f a with
      | none => rfl
      | some b => rw [ih ⟨_, hxl, hfx⟩]; rfl

lemma selectTrue_eq_picks (p_hat : List (List ℝ)) (y : List ℕ)
    (hb : ∀ nl ∈ y.enum,
      nl.1 < p_hat.length ∧ nl.2 < (p_hat.getD nl.1 []).length) :
    selectTrue p_hat y = some (picks p_hat y) := by
  unfold selectTrue picks
  apply traverseOpt_eq_map
  intro nl hnl
  obtain ⟨h1, h2⟩ := hb nl hnl
  unfold locLookup
  rw [get?_eq_some_getD p_hat [] h1]
  exact get?_eq_some_getD _ 0 h2

lemma sum_nonpos_of (l : List ℝ) : (∀ x ∈ l, x ≤ 0) → l.sum ≤ 0 := by
  induction l with
  | nil => intro _; simp
  | cons a l ih =>
    intro h
    rw [List.sum_cons]
    have ha := h a (by simp)
    have hl := ih (fun x hx => h x (by simp [hx]))
    linarith

lemma sum_nonpos_eq_zero_iff (l : List ℝ) :
    (∀ x ∈ l, x ≤ 0) → (l.sum = 0 ↔ ∀ x ∈ l, x = 0) := by
  induction l with
  | nil => intro _; simp
  | cons a l ih =>
    intro h
    have ha := h a (by simp)
    have hl := sum_nonpos_of l (fun x hx => h x (by simp [hx]))
    have ihl := ih (fun x hx => h x (by simp [hx]))
    rw [List.sum_cons]
    constructor
    · intro hsum
      have ha0 : a = 0 := by linarith
      have hs0 : l.sum = 0 := by linarith
      intro x hx
      rcases List.mem_cons.mp hx with rfl | hxl
      · exact ha0
      · exact (ihl.mp hs0) x hxl
    · intro hall
      have ha0 : a = 0 := hall a (by simp)
      have hrest : ∀ x ∈ l, x = 0 := fun x hx => hall x (by simp [hx])
      rw [ha0, ihl.mpr hrest, add_zero]

lemma getD_map_neg (l : List ℝ) (j : ℕ) :
    (l.map (fun w => -w)).getD j 0 = -(l.getD j 0) := by
  rw [List.getD_eq_get?, List.getD_eq_get?, List.get?_map]
  cases l.get? j <;> simp

lemma getLastD_eq_getD {α : Type _} (l : List α) (d : α) {n : ℕ}
    (h : l.length = n + 1) : l.getLastD d = l.getD n d := by
  rw [List.getLastD_eq_getLast?, List.getLast?_eq_get?, List.getD_eq_get?, h]
  norm_num

/-! ## The claims -/

/-- **C1**: for every probability table and every label vector whose
indices match the table's rows and whose values are columns of the table,
`get_loss` selects each observation's true-label probability
`p_hat[n, y[n]]` and returns the negative of the sum of their natural
logs — the negative log-likelihood of the selected sequence. -/
theorem get_loss_is_neg_sum_log (p_hat : List (List ℝ)) (y : List ℕ)
    (hb : ∀ nl ∈ y.enum,
      nl.1 < p_hat.length ∧ nl.2 < (p_hat.getD nl.1 []).length) :
    get_loss p_hat y = some (-(((picks p_hat y).map elog).sum)) := by
  unfold get_loss
  rw [selectTrue_eq_picks p_hat y hb]
  rfl

/-- Witness for **C1**: a concrete table and label vector with all
lookups in range. -/
theorem get_loss_is_neg_sum_log_witness :
    get_loss [[(1:ℝ)/2]] [0]
      = some (-(((picks [[(1:ℝ)/2]] [0]).map elog).sum)) :=
  get_loss_is_neg_sum_log [[(1:ℝ)/2]] [0] (by decide)

/-- **C3**: when every selected true-label probability lies in `(0, 1]`,
`get_loss` returns the real value `lossVal`, that value is nonnegative,
and it is zero exactly when every selected probability is `1`. -/
theorem get_loss_nonneg_zero_iff (p_hat : List (List ℝ)) (y : List ℕ)
    (hb : ∀ nl ∈ y.enum,
      nl.1 < p_hat.length ∧ nl.2 < (p_hat.getD nl.1 []).length)
    (hrange : ∀ x ∈ picks p_hat y, 0 < x ∧ x ≤ 1) :
    get_loss p_hat y = some ((lossVal p_hat y : ℝ) : EReal) ∧
      0 ≤ lossVal p_hat y ∧
      (lossVal p_hat y = 0 ↔ ∀ x ∈ picks p_hat y, x = 1) := by
  have hne : ∀ x ∈ picks p_hat y, x ≠ 0 :=
    fun x hx => ne_of_gt (hrange x hx).1
  have hlog : ∀ z ∈ (picks p_hat y).map Real.log, z ≤ 0 := by
    intro z hz
    rcases List.mem_map.mp hz with ⟨x, hx, rfl⟩
    exact Real.log_nonpos (le_of_lt (hrange x hx).1) (hrange x hx).2
  refine ⟨?_, ?_, ?_⟩
  · unfold get_loss
    rw [selectTrue_eq_picks p_hat y hb]
    show some (_get_loss (picks p_hat y)) = _
    unfold _get_loss lossVal
    rw [ll_coe _ hne, EReal.coe_neg]
  · unfold lossVal
    have := sum_nonpos_of _ hlog
    linarith
  · unfold lossVal
    rw [neg_eq_zero, sum_nonpos_eq_zero_iff _ hlog]
    constructor
    · intro h x hx
      have hlx : Real.log x = 0 := h (Real.log x) (List.mem_map_of_mem _ hx)
      rcases Real.log_eq_zero.mp hlx with h0 | h1 | hm1
      · exact absurd h0 (hne x hx)
      · exact h1
      · linarith [(hrange x hx).1, hm1 ▸ (hrange x hx).1]
    · intro h z hz
      rcases List.mem_map.mp hz with ⟨x, hx, rfl⟩
      rw [h x hx, Real.log_one]

/-- Witness for **C3**: the table assigning probability 1 to the single
observation's true label has loss 0. -/
theorem get_loss_nonneg_zero_iff_witness :
    get_loss [[(1:ℝ)]] [0] = some ((lossVal [[(1:ℝ)]] [0] : ℝ) : EReal) ∧
      0 ≤ lossVal [[(1:ℝ)]] [0] ∧
      (lossVal [[(1:ℝ)]] [0] = 0 ↔ ∀ x ∈ picks [[(1:ℝ)]] [0], x = 1) :=
  get_loss_nonneg_zero_iff [[(1:ℝ)]] [0] (by decide)
    (by
      rw [show picks [[(1:ℝ)]] [0] = [1] from rfl]
      intro x hx
      rw [List.mem_singleton] at hx
      subst hx
      norm_num)

/-- **C4**: a probability of exactly 0 among the selected entries makes
`get_ll` return `-inf` (`⊥`) and `_get_loss` return `+inf` (`⊤`), and
`get_loss` returns that infinite value (`some ⊤`) to its caller rather
than failing (`none`) or clamping. -/
theorem zero_prob_infinite_loss (p_hat : List (List ℝ)) (y : List ℕ)
    (p : List ℝ) (hsel : selectTrue p_hat y = some p) (h0 : (0:ℝ) ∈ p)
    (_hpos : ∀ x ∈ p, x ≠ 0 → 0 < x) :
    get_ll p = ⊥ ∧ _get_loss p = ⊤ ∧ get_loss p_hat y = some ⊤ := by
  have hll : get_ll p = ⊥ := ll_bot p h0
  have hloss : _get_loss p = ⊤ := by unfold _get_loss; rw [hll, EReal.neg_bot]
  refine ⟨hll, hloss, ?_⟩
  unfold get_loss
  rw [hsel]
  show some (_get_loss p) = some ⊤
  rw [hloss]

/-- Witness for **C4**: the table assigning probability 0 to the single
observation's true label. -/
theorem zero_prob_infinite_loss_witness :
    get_ll [(0:ℝ)] = ⊥ ∧ _get_loss [(0:ℝ)] = ⊤ ∧
      get_loss [[(0:ℝ), 1]] [0] = some ⊤ :=
  zero_prob_infinite_loss [[(0:ℝ), 1]] [0] [(0:ℝ)] rfl (by simp)
    (by intro x hx hne; rw [List.mem_singleton] at hx; exact absurd hx hne)

/-- **C8**: if some observation's label is missing from the table's
columns (or its index from the table's rows), the `p_hat.loc` lookup
raises and `get_loss` propagates the failure (`none`) instead of
returning a value. -/
theorem get_loss_fails_on_missing_label (p_hat : List (List ℝ))
    (y : List ℕ) (h : ∃ nl ∈ y.enum, locLookup p_hat nl = none) :
    get_loss p_hat y = none := by
  unfold get_loss selectTrue
  rw [traverseOpt_none _ _ h]
  rfl

/-- Witness for **C8**: label 2 is not a column of a two-category
table. -/
theorem get_loss_fails_on_missing_label_witness :
    get_loss [[(1:ℝ)/2, 1/2]] [2] = none :=
  get_loss_fails_on_missing_label _ _ ⟨(0, 2), by decide, rfl⟩

/-- **C9**: a call to `get_ll` or `get_loss` returns its arguments'
state unchanged (the computation is read-only on the table, the label
vector and the probability sequence) while producing the same value as
the pure function. -/
theorem loss_calls_never_mutate_arguments (a : LossArgs) :
    (get_ll_call a).2 = a ∧ (get_loss_call a).2 = a ∧
      (get_ll_call a).1 = get_ll a.p ∧
      (get_loss_call a).1 = get_loss a.p_hat a.y :=
  ⟨rfl, rfl, rfl, rfl⟩

/-- **C10**: the `homebrewify` guard raises `ValueError` (`none`) exactly
when the module constant it reads differs from 2 — for every reference
model, so the model's actual output width is never consulted — and with
the module's `NUM_CATEGORIES = 2` the branch is unreachable:
`homebrewify` always succeeds. -/
theorem homebrewify_value_error_iff (k : ℕ) (ref : RefNN) (lw : List ℕ) :
    (homebrewifyG k ref lw = none ↔ k ≠ 2) ∧
      homebrewify ref lw = some (homebrewNN ref lw) := by
  constructor
  · unfold homebrewifyG
    split_ifs with h
    · simp [h]
    · simp [h]
  · unfold homebrewify homebrewifyG NUM_CATEGORIES
    norm_num

/-- **C6**: the output layer `homebrewify` builds is the network's last
layer; it has two neurons, neuron 0's bias and every incoming weight are
the negation of neuron 1's corresponding entries, and neuron 1's row is
exactly the reference model's single output neuron's bias followed by its
incoming weights. -/
theorem homebrew_output_negation (ref : RefNN) (lw : List ℕ) :
    (homebrewNN ref lw).getLast? = some (outputLayerOf ref) ∧
      (outputLayerOf ref).length = 2 ∧
      (∀ j, ((outputLayerOf ref).getD 0 []).getD j 0
          = -(((outputLayerOf ref).getD 1 []).getD j 0)) ∧
      ((outputLayerOf ref).getD 0 []).length
          = ((outputLayerOf ref).getD 1 []).length ∧
      (outputLayerOf ref).getD 1 []
          = refOutputBias ref :: refOutputWeights ref := by
  refine ⟨?_, rfl, ?_, ?_, rfl⟩
  · unfold homebrewNN
    exact List.getLast?_concat _
  · intro j
    cases j with
    | zero => rfl
    | succ j => exact getD_map_neg _ _
  · show ((refOutputWeights ref).map (fun w => -w)).length + 1
        = (refOutputWeights ref).length + 1
    rw [List.length_map]

/-- **C7**: on a reference model whose weight arrays match the declared
layout (one coefficient matrix per layer, the matrix of layer `l` having
one row per incoming neuron — the input features for `l = 0`), every
layer table `homebrewify` builds has row count equal to its declared
neuron width (the hidden widths, then `NUM_CATEGORIES` for the output
layer) and every row of layer `i` holds exactly `1` bias entry plus one
weight per neuron of layer `i - 1` (or per input feature for `i = 0`). -/
theorem homebrew_shape_invariant (ref : RefNN) (lw : List ℕ)
    (hlen : ref.coefs.length = lw.length + 1)
    (hshape : ∀ l < lw.length + 1,
      (ref.coefs.getD l []).length
        = if l = 0 then NUM_FEATURES else lw.getD (l - 1) 0) :
    (homebrewNN ref lw).length = lw.length + 1 ∧
      ∀ i < lw.length + 1,
        ((homebrewNN ref lw).getD i []).length
            = (if i = lw.length then NUM_CATEGORIES else lw.getD i 0) ∧
          ∀ row ∈ (homebrewNN ref lw).getD i [],
            row.length
              = 1 + (if i = 0 then NUM_FEATURES else lw.getD (i - 1) 0) := by
  have hhid : ((List.range lw.length).map
      (fun l => mkLayer (ref.intercepts.getD l []) (ref.coefs.getD l [])
        (lw.getD l 0))).length = lw.length := by
    rw [List.length_map, List.length_range]
  refine ⟨?_, ?_⟩
  · unfold homebrewNN
    rw [List.length_append, hhid]
    rfl
  · intro i hi
    by_cases hilt : i < lw.length
    · have hget : (homebrewNN ref lw).getD i []
          = mkLayer (ref.intercepts.getD i []) (ref.coefs.getD i [])
            (lw.getD i 0) := by
        unfold homebrewNN
        rw [List.getD_append _ _ _ i (by rw [hhid]; exact hilt),
          List.getD_eq_get?, List.get?_map, List.get?_range hilt]
        rfl
      rw [hget]
      constructor
      · rw [if_neg (by omega)]
        unfold mkLayer
        rw [List.length_map, List.length_range]
      · intro row hrow
        rcases List.mem_map.mp hrow with ⟨j, hj, rfl⟩
        show (colT (ref.coefs.getD i []) j).length + 1 = _
        unfold colT
        rw [List.length_map, hshape i (by omega)]
        omega
    · have hieq : i = lw.length := by omega
      subst hieq
      have hget : (homebrewNN ref lw).getD lw.length []
          = outputLayerOf ref := by
        unfold homebrewNN
        rw [List.getD_append_right _ _ _ lw.length (by rw [hhid]), hhid]
        simp
      rw [hget]
      have hw : (refOutputWeights ref).length
          = if lw.length = 0 then NUM_FEATURES
            else lw.getD (lw.length - 1) 0 := by
        unfold refOutputWeights colT
        rw [List.length_map, getLastD_eq_getD ref.coefs [] hlen]
        exact hshape lw.length (by omega)
      constructor
      · rw [if_pos rfl]
        rfl
      · intro row hrow
        have hrow2 : row = (-(refOutputBias ref))
              :: (refOutputWeights ref).map (fun w => -w)
            ∨ row = refOutputBias ref :: refOutputWeights ref := by
          simpa [outputLayerOf] using hrow
        rcases hrow2 with rfl | rfl
        · rw [List.length_cons, List.length_map, hw]
          omega
        · rw [List.length_cons, hw]
          omega

/-- Witness for **C7**: a reference model with hidden width 1 over the 2
input features and a single output neuron. -/
theorem homebrew_shape_invariant_witness :
    (homebrewNN (RefNN.mk [[(1:ℝ)],[2]] [[[3],[4]],[[5]]]) [1]).length = 2 ∧
      ∀ i < 2,
        ((homebrewNN (RefNN.mk [[(1:ℝ)],[2]] [[[3],[4]],[[5]]]) [1]).getD
              i []).length
            = (if i = 1 then NUM_CATEGORIES else List.getD [1] i 0) ∧
          ∀ row ∈ (homebrewNN (RefNN.mk [[(1:ℝ)],[2]] [[[3],[4]],[[5]]])
              [1]).getD i [],
            row.length
              = 1 + (if i = 0 then NUM_FEATURES else List.getD [1] (i - 1) 0) :=
  homebrew_shape_invariant (RefNN.mk [[(1:ℝ)],[2]] [[[3],[4]],[[5]]]) [1]
    rfl (by decide)

/-! ## Forward-pass lemmas -/

lemma sum_map_div (l : List ℝ) (c : ℝ) :
    (l.map (fun z => z / c)).sum = l.sum / c := by
  induction l with
  | nil => simp
  | cons a l ih => rw [List.map_cons, List.sum_cons, List.sum_cons, ih, add_div]

lemma squash_sum_one (v : List ℝ) (hv : v ≠ []) : (squash v).sum = 1 := by
  unfold squash
  have hpos : 0 < (v.map Real.exp).sum := by
    apply List.sum_pos
    · intro x hx
      rcases List.mem_map.mp hx with ⟨z, _, rfl⟩
      exact Real.exp_pos z
    · rw [Ne, List.map_eq_nil]
      exact hv
  have hmm : v.map (fun z => Real.exp z / (v.map Real.exp).sum)
      = (v.map Real.exp).map (fun z => z / (v.map Real.exp).sum) := by
    rw [List.map_map]
    rfl
  rw [hmm, sum_map_div, div_self (ne_of_gt hpos)]

lemma squash_nonneg (v : List ℝ) : ∀ q ∈ squash v, 0 ≤ q := by
  intro q hq
  unfold squash at hq
  rcases List.mem_map.mp hq with ⟨z, _, rfl⟩
  have hS : 0 ≤ (v.map Real.exp).sum := by
    apply List.sum_nonneg
    intro x hx
    rcases List.mem_map.mp hx with ⟨w, _, rfl⟩
    exact (Real.exp_pos w).le
  exact div_nonneg (Real.exp_pos z).le hS

lemma propagate_concat (LS : List (List (List ℝ))) (L : List (List ℝ))
    (x : List ℝ) : propagate (LS ++ [L]) x = layerOut L (propagate LS x) := by
  unfold propagate
  rw [List.foldl_append]
  rfl

lemma layerOut_ne_nil (L : List (List ℝ)) (a : List ℝ) (hL : L ≠ []) :
    layerOut L a ≠ [] := by
  unfold layerOut
  rw [Ne, List.map_eq_nil]
  exact hL

/-- **C2** (Modelled from the spec: the forward-pass code is not under
`src/`): for every network with a nonempty output layer and every batch,
each row of `forward`'s output sums to exactly 1 and has no negative
entry — the squash exponentiates and row-normalizes the output layer's
post-activations.  (The idealized real arithmetic makes the row sum
exactly 1; the spec's "± small numerical tolerance" allows for the
floating-point rounding the embedding abstracts away.) -/
theorem forward_rows_are_distributions (LS : List (List (List ℝ)))
    (L : List (List ℝ)) (X : List (List ℝ)) (hL : L ≠ []) :
    List.Forall
      (fun row => row.sum = 1 ∧ List.Forall (fun q => (0:ℝ) ≤ q) row)
      (forward (LS ++ [L]) X) := by
  rw [List.forall_iff_forall_mem]
  intro row hrow
  rcases List.mem_map.mp hrow with ⟨x, _, rfl⟩
  constructor
  · apply squash_sum_one
    rw [propagate_concat]
    exact layerOut_ne_nil _ _ hL
  · rw [List.forall_iff_forall_mem]
    exact squash_nonneg _

/-- Witness for **C2**: a one-layer network (single neuron, bias 0,
weight 1) on a one-observation batch. -/
theorem forward_rows_are_distributions_witness :
    List.Forall
      (fun row => row.sum = 1 ∧ List.Forall (fun q => (0:ℝ) ≤ q) row)
      (forward [[[(0:ℝ), 1]]] [[1]]) :=
  forward_rows_are_distributions [] [[(0:ℝ), 1]] [[1]] (by simp)

/-! ## The concrete demo scenario -/

lemma sigmoid_zero : sigmoid 0 = 1/2 := by
  unfold sigmoid
  rw [neg_zero, Real.exp_zero]
  norm_num

lemma demo_propagate :
    propagate [[[(0:ℝ), 1, -1]], [[0, -1], [0, 1]]] [1, 1]
      = [sigmoid (-(1/2)), sigmoid (1/2)] := by
  simp only [propagate, List.foldl, layerOut, List.map, preact, dotl,
    List.zipWith, List.sum_cons, List.sum_nil]
  norm_num [sigmoid_zero]

lemma exp_half_bounds :
    1.648 < Real.exp (1/2) ∧ Real.exp (1/2) < 1.649 := by
  have hsq : Real.exp (1/2) * Real.exp (1/2) = Real.exp 1 := by
    rw [← Real.exp_add]
    norm_num
  have hp := Real.exp_pos (1/2 : ℝ)
  constructor
  · nlinarith [Real.exp_one_gt_d9]
  · nlinarith [Real.exp_one_lt_d9]

lemma demo_d_bounds :
    0.2447 < sigmoid (1/2) - sigmoid (-(1/2)) ∧
      sigmoid (1/2) - sigmoid (-(1/2)) < 0.245 := by
  obtain ⟨hs1, hs2⟩ := exp_half_bounds
  have hp := Real.exp_pos (1/2 : ℝ)
  have hd : sigmoid (1/2) - sigmoid (-(1/2))
      = (Real.exp (1/2) - 1) / (Real.exp (1/2) + 1) := by
    unfold sigmoid
    rw [neg_neg, Real.exp_neg]
    have h1 : Real.exp (1/2) ≠ 0 := ne_of_gt hp
    have h2 : 1 + (Real.exp (1/2))⁻¹ ≠ 0 := by positivity
    have h3 : (1:ℝ) + Real.exp (1/2) ≠ 0 := by positivity
    field_simp
    ring
  rw [hd]
  constructor
  · rw [lt_div_iff (by linarith)]
    linarith
  · rw [div_lt_iff (by linarith)]
    linarith

lemma demo_expd_bounds :
    1.2447 < Real.exp (sigmoid (1/2) - sigmoid (-(1/2))) ∧
      Real.exp (sigmoid (1/2) - sigmoid (-(1/2))) < 1.3246 := by
  obtain ⟨hd1, hd2⟩ := demo_d_bounds
  have hne : sigmoid (1/2) - sigmoid (-(1/2)) ≠ 0 := by
    intro h
    rw [h] at hd1
    norm_num at hd1
  have hnegne : -(sigmoid (1/2) - sigmoid (-(1/2))) ≠ 0 := by
    intro h
    rw [neg_eq_zero] at h
    exact hne h
  constructor
  · have := Real.add_one_lt_exp hne
    linarith
  · have hlow := Real.add_one_lt_exp hnegne
    have hinv : Real.exp (sigmoid (1/2) - sigmoid (-(1/2)))
        * Real.exp (-(sigmoid (1/2) - sigmoid (-(1/2)))) = 1 := by
      rw [← Real.exp_add]
      norm_num
    nlinarith [Real.exp_pos (sigmoid (1/2) - sigmoid (-(1/2)))]

lemma demo_forward :
    forward [[[(0:ℝ), 1, -1]], [[0, -1], [0, 1]]] [[1, 1]]
      = [[Real.exp (sigmoid (-(1/2)))
            / (Real.exp (sigmoid (-(1/2))) + Real.exp (sigmoid (1/2))),
          Real.exp (sigmoid (1/2))
            / (Real.exp (sigmoid (-(1/2))) + Real.exp (sigmoid (1/2)))]] := by
  unfold forward
  simp only [List.map]
  rw [demo_propagate]
  unfold squash
  simp [List.map, List.sum_cons, List.sum_nil, add_zero]

lemma demo_q0_eq :
    Real.exp (sigmoid (-(1/2)))
        / (Real.exp (sigmoid (-(1/2))) + Real.exp (sigmoid (1/2)))
      = 1 / (1 + Real.exp (sigmoid (1/2) - sigmoid (-(1/2)))) := by
  have hb : Real.exp (sigmoid (1/2))
      = Real.exp (sigmoid (-(1/2)))
        * Real.exp (sigmoid (1/2) - sigmoid (-(1/2))) := by
    rw [← Real.exp_add]
    congr 1
    ring
  rw [hb]
  have ha := Real.exp_pos (sigmoid (-(1/2)))
  have hd := Real.exp_pos (sigmoid (1/2) - sigmoid (-(1/2)))
  have h1 : Real.exp (sigmoid (-(1/2)))
      + Real.exp (sigmoid (-(1/2)))
        * Real.exp (sigmoid (1/2) - sigmoid (-(1/2))) ≠ 0 := by positivity
  have h2 : (1:ℝ) + Real.exp (sigmoid (1/2) - sigmoid (-(1/2))) ≠ 0 := by
    positivity
  field_simp
  ring

lemma demo_q0_bounds :
    43/100 < Real.exp (sigmoid (-(1/2)))
        / (Real.exp (sigmoid (-(1/2))) + Real.exp (sigmoid (1/2))) ∧
      Real.exp (sigmoid (-(1/2)))
          / (Real.exp (sigmoid (-(1/2))) + Real.exp (sigmoid (1/2)))
        < 45/100 := by
  rw [demo_q0_eq]
  obtain ⟨he1, he2⟩ := demo_expd_bounds
  have hpos : (0:ℝ) < 1 + Real.exp (sigmoid (1/2) - sigmoid (-(1/2))) := by
    positivity
  constructor
  · rw [lt_div_iff hpos]
    linarith
  · rw [div_lt_iff hpos]
    linarith

/-- **C5 counterexample**: on the concrete scenario network (hidden
neuron `[bias 0, 1, -1]`, output neurons `[0, -1]` and `[0, 1]`) and
input `[1, 1]`, the first squashed output probability exceeds
`0.269 + 0.1`: it is not approximately `0.269` (it is ≈ `0.439`), because
the output layer is sigmoid-activated before the squash, so the squash
applies to `[σ(-0.5), σ(0.5)]`, not to the raw pre-activations
`[-0.5, 0.5]`. -/
theorem forward_demo_first_prob_not_269 :
    (269/1000 : ℝ) + 1/10
      < ((forward [[[(0:ℝ), 1, -1]], [[0, -1], [0, 1]]] [[1, 1]]).getD
          0 []).getD 0 0 := by
  rw [demo_forward]
  show (269/1000 : ℝ) + 1/10
      < Real.exp (sigmoid (-(1/2)))
          / (Real.exp (sigmoid (-(1/2))) + Real.exp (sigmoid (1/2)))
  obtain ⟨hq1, _⟩ := demo_q0_bounds
  linarith

/-- **C5 (amended)**: on the scenario network and input `[1, 1]` the
hidden pre-activation is 0, the hidden post-activation is `0.5`, the
output pre-activations are `[-0.5, 0.5]`, the output post-activations are
`[σ(-0.5), σ(0.5)]`, and the squashed output is approximately
`[0.439, 0.561]` (first entry in `(0.43, 0.45)`, second in
`(0.55, 0.57)`, summing to 1) — not `[0.269, 0.731]`, which would be the
softmax of the raw pre-activations. -/
theorem forward_demo_scenario :
    preact [(0:ℝ), 1, -1] [1, 1] = 0 ∧
      sigmoid 0 = 1/2 ∧
      preact [(0:ℝ), -1] [1/2] = -(1/2) ∧
      preact [(0:ℝ), 1] [1/2] = 1/2 ∧
      propagate [[[(0:ℝ), 1, -1]], [[0, -1], [0, 1]]] [1, 1]
        = [sigmoid (-(1/2)), sigmoid (1/2)] ∧
      43/100 < ((forward [[[(0:ℝ), 1, -1]], [[0, -1], [0, 1]]]
          [[1, 1]]).getD 0 []).getD 0 0 ∧
      ((forward [[[(0:ℝ), 1, -1]], [[0, -1], [0, 1]]] [[1, 1]]).getD
          0 []).getD 0 0 < 45/100 ∧
      55/100 < ((forward [[[(0:ℝ), 1, -1]], [[0, -1], [0, 1]]]
          [[1, 1]]).getD 0 []).getD 1 0 ∧
      ((forward [[[(0:ℝ), 1, -1]], [[0, -1], [0, 1]]] [[1, 1]]).getD
          0 []).getD 1 0 < 57/100 ∧
      ((forward [[[(0:ℝ), 1, -1]], [[0, -1], [0, 1]]] [[1, 1]]).getD
            0 []).getD 0 0
          + ((forward [[[(0:ℝ), 1, -1]], [[0, -1], [0, 1]]]
              [[1, 1]]).getD 0 []).getD 1 0
        = 1 := by
  obtain ⟨hq1, hq2⟩ := demo_q0_bounds
  have hsum : ((forward [[[(0:ℝ), 1, -1]], [[0, -1], [0, 1]]]
          [[1, 1]]).getD 0 []).getD 0 0
        + ((forward [[[(0:ℝ), 1, -1]], [[0, -1], [0, 1]]]
            [[1, 1]]).getD 0 []).getD 1 0
      = 1 := by
    rw [demo_forward]
    show Real.exp (sigmoid (-(1/2)))
          / (Real.exp (sigmoid (-(1/2))) + Real.exp (sigmoid (1/2)))
        + Real.exp (sigmoid (1/2))
          / (Real.exp (sigmoid (-(1/2))) + Real.exp (sigmoid (1/2)))
      = 1
    rw [div_add_div_same]
    apply div_self
    positivity
  have hq0 : ((forward [[[(0:ℝ), 1, -1]], [[0, -1], [0, 1]]]
        [[1, 1]]).getD 0 []).getD 0 0
      = Real.exp (sigmoid (-(1/2)))
        / (Real.exp (sigmoid (-(1/2))) + Real.exp (sigmoid (1/2))) := by
    rw [demo_forward]
    rfl
  refine ⟨?_, sigmoid_zero, ?_, ?_, demo_propagate, ?_, ?_, ?_, ?_, hsum⟩
  · simp only [preact, dotl, List.zipWith, List.sum_cons, List.sum_nil]
    norm_num
  · simp only [preact, dotl, List.zipWith, List.sum_cons, List.sum_nil]
    norm_num
  · simp only [preact, dotl, List.zipWith, List.sum_cons, List.sum_nil]
    norm_num
  · rw [hq0]
    exact hq1
  · rw [hq0]
    exact hq2
  · linarith [hsum, hq0, hq2]
  · linarith [hsum, hq0, hq1]

end Fann
